import Mathlib

/-
Verification of the atuin daemon core: the frecency scorer and the
deduplicated search index (crates/atuin-daemon/src/search/index.rs),
the history RPC service (crates/atuin-daemon/src/components/history.rs),
the sync tick (crates/atuin-daemon/src/components/sync.rs) and the
orchestrator (crates/atuin-daemon/src/daemon.rs).

Modelling conventions:
- i64 / u32 / u64 machine integers are modelled as unbounded Int / Nat.
  All timestamps handled by the daemon are unix times (seconds or
  nanoseconds since 1970), far inside the i64 range, and counts are
  bounded by the number of insertions, so no arithmetic in the modelled
  code paths can overflow on reachable states.
- f64 arithmetic in the frecency scorer (ln, *, min, cast to u32) is
  modelled by exact real arithmetic: Real.log, multiplication, min and
  Int.floor composed with Int.toNat (the `as u32` cast truncates toward
  zero and its argument is non-negative there).
- [u8; 16] UUID byte arrays are modelled by an opaque value type UuidB
  (lists of naturals); uuid::Uuid::parse_str is an external library
  function, so it is passed in as an explicit parameter
  `parse : String → Option UuidB` and every theorem holds for an
  arbitrary parser.
- The lasso string interner maps strings to small keys injectively and
  `get` succeeds exactly on previously interned strings, so interned-key
  sets (directories, hosts) are modelled by sets of the strings they
  intern; membership is preserved in both directions.
- HashSet / DashMap are modelled by lists: sets as lists quotiented by
  membership, the commands DashMap as an association list with nodup
  keys (an invariant we prove is preserved).
- The nucleo fuzzy matcher is external; its contract is that matched
  items are drawn from the injected population and every matched item
  passes the installed filter predicate.  `SearchIndex.search` therefore
  takes the fuzzily matched command list as a parameter and applies the
  filter built by `build_filter` to it, mirroring set_filter + tick.
- Only the non-Windows build of `with_trailing_slash` is modelled
  (path separator `/`).
-/

/-- A 16-byte UUID value as produced by uuid::Uuid::parse_str (opaque). -/
abbrev UuidB := List Nat

/-- One shell-command invocation, from atuin_client::history::History.
Only the fields read by the daemon core are modelled.  `timestamp` is
the unix timestamp in the unit the consuming code compares it at
(the index reads whole seconds via unix_timestamp()). -/
structure History where
  id : String
  command : String
  cwd : String
  hostname : String
  session : String
  timestamp : Int
  duration : Int
  exit : Int
deriving DecidableEq, Repr

/-- A record has round-tripping identities: both its id and its session
parse as UUIDs.  Per the spec's data model these are 128-bit
identifiers. -/
def validRecord (parse : String → Option UuidB) (r : History) : Prop :=
  (parse r.id).isSome ∧ (parse r.session).isSome

instance (parse : String → Option UuidB) (r : History) :
    Decidable (validRecord parse r) := by
  unfold validRecord
  infer_instance

/-- components/search.rs `with_trailing_slash` (non-Windows build).
Rust `s.ends_with('/')` is modelled on the character list. -/
def with_trailing_slash (s : String) : String :=
  if s.data.getLast? = some ('/') then s else s ++ "/"

/-- Insert into a HashSet modelled as a list: no-op when present. -/
def insertSet {α : Type} [DecidableEq α] (a : α) (s : List α) : List α :=
  if a ∈ s then s else a :: s

/-- index.rs `FrecencyData`: count of uses and most recent use (seconds). -/
structure FrecencyData where
  count : Nat
  last_used : Int
deriving DecidableEq, Repr

/-- index.rs `FrecencyData::default()`. -/
def FrecencyData.default : FrecencyData := ⟨0, 0⟩

/-- index.rs `FrecencyData::record_use`. -/
def FrecencyData.record_use (f : FrecencyData) (timestamp : Int) : FrecencyData :=
  { count := f.count + 1
    last_used := if timestamp > f.last_used then timestamp else f.last_used }

/-- The recency ladder of index.rs `FrecencyData::compute`: the Rust
`match age_hours` with ordered arms 0, 1..=6, 7..=24, 25..=72, 73..=168,
169..=720, catch-all. -/
def recencyScore (age_hours : Nat) : Nat :=
  if age_hours = 0 then 100
  else if age_hours ≤ 6 then 90
  else if age_hours ≤ 24 then 70
  else if age_hours ≤ 72 then 50
  else if age_hours ≤ 168 then 30
  else if age_hours ≤ 720 then 15
  else 5

/-- index.rs frequency boost `((count as f64).ln() * 20.0).min(100.0) as u32`,
with f64 modelled by exact reals. -/
noncomputable def frequencyScore (count : Nat) : Nat :=
  (⌊min (Real.log (count : ℝ) * 20) 100⌋).toNat

/-- index.rs `FrecencyData::compute`.  `(now - last_used).max(0) as u64`
is `Int.toNat`, and `age_seconds / 3600` is u64 (truncating) division. -/
noncomputable def FrecencyData.compute (f : FrecencyData) (now : Int) : Nat :=
  if f.count = 0 then 0
  else
    recencyScore ((now - f.last_used).toNat / 3600) + frequencyScore f.count

/-- Modelled from the spec: the `bucket` age ladder of §4.5.3,
0 h → 100, 1–6 h → 90, 7–24 h → 70, 25–72 h → 50, 73–168 h → 30,
169–720 h → 15, older → 5 (to be compared with the source's
`recencyScore`). -/
def bucket (age_hours : Nat) : Nat :=
  if age_hours = 0 then 100
  else if 1 ≤ age_hours ∧ age_hours ≤ 6 then 90
  else if 7 ≤ age_hours ∧ age_hours ≤ 24 then 70
  else if 25 ≤ age_hours ∧ age_hours ≤ 72 then 50
  else if 73 ≤ age_hours ∧ age_hours ≤ 168 then 30
  else if 169 ≤ age_hours ∧ age_hours ≤ 720 then 15
  else 5

/-- index.rs `CommandData`: the deduplicated entry for one command text.
Interned directory/host keys are modelled by the interned strings. -/
structure CommandData where
  most_recent_id : UuidB
  most_recent_timestamp : Int
  global_frecency : FrecencyData
  directories : List String
  hosts : List String
  sessions : List UuidB
deriving DecidableEq, Repr

/-- index.rs `CommandData::new`: None when id or session fails to parse. -/
def CommandData.new (parse : String → Option UuidB) (h : History) :
    Option CommandData :=
  match parse h.id, parse h.session with
  | some history_id, some session =>
    some
      { most_recent_id := history_id
        most_recent_timestamp := h.timestamp
        global_frecency := FrecencyData.default.record_use h.timestamp
        directories := [with_trailing_slash h.cwd]
        hosts := [h.hostname]
        sessions := [session] }
  | _, _ => none

/-- index.rs `CommandData::add_invocation`: parses both UUIDs first and
returns the data unchanged (Rust: returns false) when either fails;
otherwise records the use, extends the provenance sets, and advances the
most-recent fields when the new timestamp is strictly greater. -/
def CommandData.add_invocation (parse : String → Option UuidB)
    (d : CommandData) (h : History) : CommandData :=
  match parse h.id, parse h.session with
  | some history_id, some session =>
    { most_recent_id :=
        if h.timestamp > d.most_recent_timestamp then history_id
        else d.most_recent_id
      most_recent_timestamp :=
        if h.timestamp > d.most_recent_timestamp then h.timestamp
        else d.most_recent_timestamp
      global_frecency := d.global_frecency.record_use h.timestamp
      directories := insertSet (with_trailing_slash h.cwd) d.directories
      hosts := insertSet h.hostname d.hosts
      sessions := insertSet session d.sessions }
  | _, _ => d

/-- index.rs `CommandData::has_invocation_in_dir` (interner lookup
modelled by direct string-set membership). -/
def CommandData.has_invocation_in_dir (d : CommandData) (dir : String) : Bool :=
  d.directories.contains dir

/-- index.rs `CommandData::has_invocation_in_workspace`. -/
def CommandData.has_invocation_in_workspace (d : CommandData) (p : String) : Bool :=
  d.directories.any (fun dir => dir.startsWith p)

/-- index.rs `CommandData::has_invocation_on_host`. -/
def CommandData.has_invocation_on_host (d : CommandData) (hostname : String) : Bool :=
  d.hosts.contains hostname

/-- index.rs `CommandData::has_invocation_in_session`. -/
def CommandData.has_invocation_in_session (parse : String → Option UuidB)
    (d : CommandData) (session : String) : Bool :=
  match parse session with
  | some bytes => d.sessions.contains bytes
  | none => false

/-- index.rs `IndexFilterMode`. -/
inductive IndexFilterMode where
  | Global : IndexFilterMode
  | Directory : String → IndexFilterMode
  | Workspace : String → IndexFilterMode
  | Host : String → IndexFilterMode
  | Session : String → IndexFilterMode
deriving DecidableEq, Repr

/-- index.rs `SearchIndex`: the commands DashMap as an association list
(in insertion order) and the nucleo item population in injection order.
The frecency snapshot and the interner carry no claim-relevant state. -/
structure SearchIndex where
  commands : List (String × CommandData)
  matcher : List String
deriving DecidableEq, Repr

/-- Lookup in the commands association list (DashMap::get by &str key). -/
def findCmd : List (String × CommandData) → String → Option CommandData
  | [], _ => none
  | p :: rest, c => if p.1 = c then some p.2 else findCmd rest c

/-- In-place update of the entry for `h.command` (DashMap::get_mut
followed by `add_invocation`); keys are nodup so at most one entry
changes. -/
def updateCmd (parse : String → Option UuidB) (h : History) :
    List (String × CommandData) → List (String × CommandData)
  | [] => []
  | p :: rest =>
    (if p.1 = h.command then (p.1, p.2.add_invocation parse h) else p)
      :: updateCmd parse h rest

/-- index.rs `SearchIndex::new`. -/
def SearchIndex.empty : SearchIndex := ⟨[], []⟩

/-- index.rs `SearchIndex::add_history`: update in place when the
command exists; otherwise build a new entry, insert it and push the
command into the matcher; skip the record entirely when its UUIDs do
not parse. -/
def SearchIndex.add_history (parse : String → Option UuidB)
    (idx : SearchIndex) (h : History) : SearchIndex :=
  match findCmd idx.commands h.command with
  | some _ => { idx with commands := updateCmd parse h idx.commands }
  | none =>
    match CommandData.new parse h with
    | some d =>
      { commands := idx.commands ++ [(h.command, d)]
        matcher := idx.matcher ++ [h.command] }
    | none => idx

/-- index.rs `SearchIndex::add_histories`. -/
def SearchIndex.add_histories (parse : String → Option UuidB)
    (idx : SearchIndex) (hs : List History) : SearchIndex :=
  hs.foldl (SearchIndex.add_history parse) idx

/-- index.rs `SearchIndex::command_count`. -/
def SearchIndex.command_count (idx : SearchIndex) : Nat :=
  idx.commands.length

/-- The pass condition computed per entry inside
`SearchIndex::build_filter` (one arm per IndexFilterMode; Global builds
no filter, i.e. everything passes). -/
def passesFilter (parse : String → Option UuidB) (mode : IndexFilterMode)
    (d : CommandData) : Bool :=
  match mode with
  | .Global => true
  | .Directory dir => d.has_invocation_in_dir dir
  | .Workspace p => d.has_invocation_in_workspace p
  | .Host hostname => d.has_invocation_on_host hostname
  | .Session session => d.has_invocation_in_session parse session

/-- index.rs `SearchIndex::search`.  `fuzzyMatched` is the stream of
snapshot items produced by the external nucleo matcher for the query
(drawn from the injected population in score order); nucleo guarantees
every matched item passes the filter installed by `build_filter`, which
is modelled by filtering here.  The surviving commands are capped at
`limit` and mapped to the `most_recent_id` of their entry, exactly as
`matched_items(..matched_count)` + `filter_map` does.  UUID formatting
(`format_uuid_bytes`) is a bijection and is left out: results are the
16-byte ids themselves. -/
def SearchIndex.search (parse : String → Option UuidB) (idx : SearchIndex)
    (mode : IndexFilterMode) (fuzzyMatched : List String) (limit : Nat) :
    List UuidB :=
  ((fuzzyMatched.filter fun c =>
      match findCmd idx.commands c with
      | some d => passesFilter parse mode d
      | none => false).take limit).filterMap
    fun c => (findCmd idx.commands c).map fun d => d.most_recent_id

/-- gRPC reply statuses produced by the history service
(components/history.rs). -/
inductive GrpcError where
  | notFound : String → GrpcError
  | internal : String → GrpcError
  | invalidArgument : String → GrpcError
deriving DecidableEq, Repr

/-- history.proto `EndHistoryRequest` (id, duration in ns, exit). -/
structure EndHistoryRequest where
  id : String
  duration : Int
  exit : Int
deriving DecidableEq, Repr

/-- history.proto `EndHistoryReply`. -/
structure EndHistoryReply where
  id : String
  idx : Nat
  version : String
  protocol : Nat
deriving DecidableEq, Repr

/-- components/history.rs `DAEMON_PROTOCOL_VERSION`. -/
def DAEMON_PROTOCOL_VERSION : Nat := 1

/-- State of the history gRPC service: the `running` DashMap keyed by
HistoryId, and whether `start` has installed the daemon handle and the
history store (both Options are set together in `Component::start`). -/
structure HistoryServiceState where
  running : List (String × History)
  ready : Bool
deriving Repr

/-- components/history.rs `HistoryGrpcService::end_history`.
The database save and the record-store push are external effects passed
in as functions returning their Result; `now` is the wall clock used
when the request carries duration 0.  Returns the state after the call
(the record is removed from `running` by the `remove` in the `if let`)
and either an error status or the reply. -/
def end_history (st : HistoryServiceState) (req : EndHistoryRequest)
    (now : Int) (dbSave : History → Except String Unit)
    (storePush : History → Except String (String × Nat)) (version : String) :
    HistoryServiceState × Except GrpcError EndHistoryReply :=
  match st.running.find? (fun p => p.1 = req.id) with
  | none =>
    (st, .error (.notFound ("could not find history with id: " ++ req.id)))
  | some (_, h0) =>
    let st' : HistoryServiceState :=
      { st with running := st.running.filter fun p => p.1 ≠ req.id }
    let h : History :=
      { h0 with
        exit := req.exit
        duration := if req.duration = 0 then now - h0.timestamp else req.duration }
    if st.ready = false then
      (st', .error (.internal ("component not initialized")))
    else
      match dbSave h with
      | .error e =>
        (st', .error (.internal ("failed to write to db: " ++ e)))
      | .ok _ =>
        match storePush h with
        | .error e =>
          (st', .error (.internal ("failed to push record to store: " ++ e)))
        | .ok (record_id, idx) =>
          (st', .ok { id := record_id, idx := idx, version := version
                      protocol := DAEMON_PROTOCOL_VERSION })

/-- True exactly on a NOT_FOUND reply. -/
def isNotFound {α : Type} : Except GrpcError α → Bool
  | .error (.notFound _) => true
  | _ => false

/-- True exactly on an INTERNAL reply. -/
def isInternal {α : Type} : Except GrpcError α → Bool
  | .error (.internal _) => true
  | _ => false

/-- An id of a record in the record log (opaque). -/
abbrev RecordId := Nat

/-- The externally visible effects of one sync tick, in program order
(components/sync.rs `do_sync_tick`). -/
inductive SyncEffect where
  | emitSyncFailed : String → SyncEffect
  | backoff : SyncEffect
  | incrementalBuild : List RecordId → SyncEffect
  | emitRecordsAdded : List RecordId → SyncEffect
  | emitSyncCompleted : Nat → Nat → SyncEffect
  | buildAliasStore : SyncEffect
  | buildVarStore : SyncEffect
  | resetInterval : SyncEffect
  | saveSyncTime : SyncEffect
deriving DecidableEq, Repr

/-- components/sync.rs `do_sync_tick` as the trace of its effects.
`loggedIn` is `settings.logged_in()`, `syncResult` is
`sync::sync(...)` returning (uploaded_count, downloaded_records), and
`periodAtBase` is whether the ticker period already equals
`settings.daemon.sync_frequency` (in which case the reset is skipped).
A failed `incremental_build` only logs, so the effect is in the trace
regardless of its own outcome. -/
def do_sync_tick (loggedIn : Except String Bool)
    (syncResult : Except String (Nat × List RecordId))
    (periodAtBase : Bool) : List SyncEffect :=
  match loggedIn with
  | .error _ => []
  | .ok false => []
  | .ok true =>
    match syncResult with
    | .error e => [.emitSyncFailed e, .backoff]
    | .ok (uploaded_count, downloaded_records) =>
      [.incrementalBuild downloaded_records,
       .emitRecordsAdded downloaded_records,
       .emitSyncCompleted uploaded_count downloaded_records.length,
       .buildAliasStore, .buildVarStore]
      ++ (if periodAtBase then [] else [.resetInterval])
      ++ [.saveSyncTime]

/-- daemon.rs `Daemon`: the registered components, in registration order
(DaemonBuilder::component pushes to the end of the vector). -/
structure Daemon where
  components : List String
deriving DecidableEq, Repr

/-- daemon.rs `Daemon::start_components`: the order in which `start()`
is invoked (`for component in &mut self.components`). -/
def Daemon.start_components (d : Daemon) : List String :=
  d.components

/-- daemon.rs `Daemon::stop_components`: the order in which `stop()`
is invoked (`for component in &mut self.components` — forward iteration
over the registration vector). -/
def Daemon.stop_components (d : Daemon) : List String :=
  d.components

/-- The source's ordered match arms agree with the spec's bucket ladder. -/
theorem recencyScore_eq_bucket (a : Nat) : recencyScore a = bucket a := by
  unfold recencyScore bucket
  split_ifs <;> omega

/-- Applying min before the floor/cast agrees with the spec's
min-after-floor formulation, for counts at least 1. -/
theorem frequencyScore_eq (n : Nat) (hn : 1 ≤ n) :
    frequencyScore n = min 100 (⌊(20 : ℝ) * Real.log (n : ℝ)⌋).toNat := by
  unfold frequencyScore
  have h0 : (0 : ℝ) ≤ Real.log (n : ℝ) := Real.log_nonneg (by exact_mod_cast hn)
  have h100 : ⌊(100 : ℝ)⌋ = 100 := by norm_num
  rw [mul_comm (20 : ℝ)]
  rcases le_total (Real.log (n : ℝ) * 20) 100 with h | h
  · rw [min_eq_left h]
    have h1 : ⌊Real.log (n : ℝ) * 20⌋ ≤ 100 := by
      calc ⌊Real.log (n : ℝ) * 20⌋ ≤ ⌊(100 : ℝ)⌋ := Int.floor_le_floor h
        _ = 100 := h100
    have h2 : 0 ≤ ⌊Real.log (n : ℝ) * 20⌋ :=
      Int.floor_nonneg.mpr (mul_nonneg h0 (by norm_num))
    omega
  · rw [min_eq_right h]
    have h1 : 100 ≤ ⌊Real.log (n : ℝ) * 20⌋ := by
      calc (100 : ℤ) = ⌊(100 : ℝ)⌋ := h100.symm
        _ ≤ ⌊Real.log (n : ℝ) * 20⌋ := Int.floor_le_floor h
    rw [h100]
    omega

/-- The frequency boost is non-decreasing in the count. -/
theorem frequencyScore_mono {a b : Nat} (hab : a ≤ b) :
    frequencyScore a ≤ frequencyScore b := by
  unfold frequencyScore
  have hlog : Real.log (a : ℝ) ≤ Real.log (b : ℝ) := by
    rcases Nat.eq_zero_or_pos a with ha | ha
    · subst ha
      simp only [Nat.cast_zero, Real.log_zero]
      rcases Nat.eq_zero_or_pos b with hb | hb
      · simp [hb]
      · exact Real.log_nonneg (by exact_mod_cast hb)
    · apply Real.log_le_log (by exact_mod_cast ha) (by exact_mod_cast hab)
  have h1 : Real.log (a : ℝ) * 20 ≤ Real.log (b : ℝ) * 20 :=
    mul_le_mul_of_nonneg_right hlog (by norm_num)
  have h2 : min (Real.log (a : ℝ) * 20) 100 ≤ min (Real.log (b : ℝ) * 20) 100 :=
    min_le_min h1 le_rfl
  exact Int.toNat_le_toNat (Int.floor_le_floor h2)

/-- The recency ladder is non-increasing in the age. -/
theorem recencyScore_antitone {a b : Nat} (hab : a ≤ b) :
    recencyScore b ≤ recencyScore a := by
  unfold recencyScore
  split_ifs <;> omega

/-- Claim C1: for count ≥ 1, `FrecencyData::compute(now)` returns
bucket(age) + min(100, floor(20·ln(count))) where age is
max(now − last_used, 0) in whole hours and bucket is the spec's ladder
(0 h → 100, 1–6 h → 90, 7–24 h → 70, 25–72 h → 50, 73–168 h → 30,
169–720 h → 15, older → 5); for count = 0 it returns 0. -/
theorem frecency_compute_formula (f : FrecencyData) (now : Int) :
    (f.count = 0 → f.compute now = 0) ∧
    (1 ≤ f.count →
      f.compute now =
        bucket ((now - f.last_used).toNat / 3600)
          + min 100 (⌊(20 : ℝ) * Real.log ((f.count : ℕ) : ℝ)⌋).toNat) := by
  constructor
  · intro h
    unfold FrecencyData.compute
    rw [if_pos h]
  · intro h
    unfold FrecencyData.compute
    rw [if_neg (by omega), recencyScore_eq_bucket, frequencyScore_eq _ h]

/-- Witness for C1 at count = 1, last_used = now = 50: the score is
bucket 0 + min 100 ⌊20·ln 1⌋ = 100 + 0. -/
theorem frecency_compute_formula_witness :
    1 ≤ (FrecencyData.mk 1 50).count ∧
    (FrecencyData.mk 1 50).compute 50 =
      bucket (((50 : Int) - 50).toNat / 3600)
        + min 100 (⌊(20 : ℝ) * Real.log (((1 : Nat) : ℕ) : ℝ)⌋).toNat :=
  ⟨by norm_num, (frecency_compute_formula ⟨1, 50⟩ 50).2 (by norm_num)⟩

/-- Claim C7: for fixed last_used and now, compute is non-decreasing in
count; for fixed count and now, compute at last_used = t₁ is at least
compute at last_used = t₂ whenever t₁ ≥ t₂. -/
theorem frecency_compute_monotone (now : Int) :
    (∀ c₁ c₂ lu, c₁ ≤ c₂ →
      FrecencyData.compute ⟨c₁, lu⟩ now ≤ FrecencyData.compute ⟨c₂, lu⟩ now) ∧
    (∀ c t₁ t₂, t₂ ≤ t₁ →
      FrecencyData.compute ⟨c, t₂⟩ now ≤ FrecencyData.compute ⟨c, t₁⟩ now) := by
  constructor
  · intro c₁ c₂ lu hc
    unfold FrecencyData.compute
    dsimp only
    rcases Nat.eq_zero_or_pos c₁ with h1 | h1
    · rw [if_pos h1]
      exact Nat.zero_le _
    · rw [if_neg (by omega), if_neg (by omega)]
      exact Nat.add_le_add le_rfl (frequencyScore_mono hc)
  · intro c t₁ t₂ ht
    unfold FrecencyData.compute
    dsimp only
    rcases Nat.eq_zero_or_pos c with h1 | h1
    · rw [if_pos h1, if_pos h1]
    · rw [if_neg (by omega), if_neg (by omega)]
      refine Nat.add_le_add ?_ le_rfl
      apply recencyScore_antitone
      apply Nat.div_le_div_right
      apply Int.toNat_le_toNat
      omega

/-- Witness for C7: both monotonicity directions at concrete inputs. -/
theorem frecency_compute_monotone_witness :
    ((3 : Nat) ≤ 5 ∧
      FrecencyData.compute ⟨3, 7⟩ 100 ≤ FrecencyData.compute ⟨5, 7⟩ 100) ∧
    ((0 : Int) ≤ 50 ∧
      FrecencyData.compute ⟨4, 0⟩ 100 ≤ FrecencyData.compute ⟨4, 50⟩ 100) :=
  ⟨⟨by norm_num, (frecency_compute_monotone 100).1 3 5 7 (by norm_num)⟩,
    ⟨by norm_num, (frecency_compute_monotone 100).2 4 50 0 (by norm_num)⟩⟩

/-- Claim C5 (code-bug evidence): with components registered in the
order history, search, sync, `Daemon::stop_components` invokes stop()
in forward registration order — not in reverse registration order as
the spec and the builder's own documentation state. -/
theorem stop_components_forward_order :
    Daemon.stop_components ⟨["history", "search", "sync"]⟩
        = ["history", "search", "sync"] ∧
    Daemon.stop_components ⟨["history", "search", "sync"]⟩
        ≠ ["sync", "search", "history"] := by
  exact ⟨rfl, by decide⟩

/-- An invocation with an unparseable id or session never changes the
entry (the parses happen before any mutation). -/
theorem add_invocation_invalid (parse : String → Option UuidB)
    (d : CommandData) (h : History)
    (hbad : parse h.id = none ∨ parse h.session = none) :
    d.add_invocation parse h = d := by
  unfold CommandData.add_invocation
  rcases hbad with hb | hb
  · rw [hb]
  · rw [hb]
    cases parse h.id <;> rfl

/-- `CommandData::new` rejects a record whose id or session fails to
parse. -/
theorem commandData_new_invalid (parse : String → Option UuidB) (h : History)
    (hbad : parse h.id = none ∨ parse h.session = none) :
    CommandData.new parse h = none := by
  unfold CommandData.new
  rcases hbad with hb | hb
  · rw [hb]
  · rw [hb]
    cases parse h.id <;> rfl

/-- An invalid record updates no entry of the commands map. -/
theorem updateCmd_invalid (parse : String → Option UuidB) (h : History)
    (hbad : parse h.id = none ∨ parse h.session = none)
    (l : List (String × CommandData)) :
    updateCmd parse h l = l := by
  induction l with
  | nil => rfl
  | cons p rest ih =>
    simp [updateCmd, add_invocation_invalid parse _ _ hbad, ih]

/-- A record whose id or session does not parse is a complete no-op on
the index (helper shared by the invariant proof). -/
theorem add_history_invalid_eq (parse : String → Option UuidB)
    (idx : SearchIndex) (h : History)
    (hbad : parse h.id = none ∨ parse h.session = none) :
    idx.add_history parse h = idx := by
  rcases hf : findCmd idx.commands h.command with _ | d
  · simp [SearchIndex.add_history, hf, commandData_new_invalid parse h hbad]
  · simp [SearchIndex.add_history, hf, updateCmd_invalid parse h hbad]

/-- Claim C6: a history record whose id or session does not parse as a
UUID leaves the index entirely unchanged — the commands map, every
entry within it (count, last_used, directory/host/session sets,
most-recent fields), and the fuzzy-matcher population are all
identical before and after the call. -/
theorem add_history_invalid_noop (parse : String → Option UuidB)
    (idx : SearchIndex) (h : History)
    (hbad : parse h.id = none ∨ parse h.session = none) :
    idx.add_history parse h = idx :=
  add_history_invalid_eq parse idx h hbad

/-- Witness for C6: a concrete malformed record on the empty index. -/
theorem add_history_invalid_noop_witness :
    (fun _ : String => (none : Option UuidB)) "bogus" = none ∧
    SearchIndex.add_history (fun _ => none) SearchIndex.empty
        ⟨"bogus", "ls", "/tmp", "host", "sess", 5, 0, 0⟩
      = SearchIndex.empty :=
  ⟨rfl, add_history_invalid_noop (fun _ => none) SearchIndex.empty
      ⟨"bogus", "ls", "/tmp", "host", "sess", 5, 0, 0⟩ (Or.inl rfl)⟩

/-- Shape of `end_history` when the id is not running: nothing changes
and the reply is NOT_FOUND. -/
theorem end_history_absent (st : HistoryServiceState) (req : EndHistoryRequest)
    (now : Int) (dbSave : History → Except String Unit)
    (storePush : History → Except String (String × Nat)) (version : String)
    (habs : req.id ∉ st.running.map fun p => p.1) :
    end_history st req now dbSave storePush version
      = (st, .error (.notFound ("could not find history with id: " ++ req.id))) := by
  have hnone : st.running.find? (fun p => p.1 = req.id) = none := by
    apply List.find?_eq_none.mpr
    intro p hp
    simp only [decide_eq_true_eq]
    intro hc
    exact habs (List.mem_map.mpr ⟨p, hp, hc⟩)
  unfold end_history
  rw [hnone]

/-- Shape of `end_history` when the id is running: whatever the storage
outcome, the returned state has the record removed from `running`. -/
theorem end_history_present_removes (st : HistoryServiceState)
    (req : EndHistoryRequest) (now : Int)
    (dbSave : History → Except String Unit)
    (storePush : History → Except String (String × Nat)) (version : String)
    (hmem : req.id ∈ st.running.map fun p => p.1) :
    (end_history st req now dbSave storePush version).1.running
      = st.running.filter fun p => p.1 ≠ req.id := by
  obtain ⟨p, hp, hpid⟩ := List.mem_map.mp hmem
  have hsome : (st.running.find? fun q => q.1 = req.id).isSome := by
    apply List.find?_isSome.mpr
    exact ⟨p, hp, by simp [hpid]⟩
  obtain ⟨q, hq⟩ := Option.isSome_iff_exists.mp hsome
  obtain ⟨q1, q2⟩ := q
  simp only [end_history, hq]
  split
  · rfl
  · split
    · rfl
    · split
      · rfl
      · rfl

/-- No key survives its own removal filter. -/
theorem not_mem_keys_filter_ne (l : List (String × History)) (i : String) :
    i ∉ (l.filter fun p => p.1 ≠ i).map fun p => p.1 := by
  intro hmem
  obtain ⟨p, hp, hpi⟩ := List.mem_map.mp hmem
  have := List.of_mem_filter hp
  simp only [decide_eq_true_eq] at this
  exact this hpi

/-- Claim C8: an EndHistory request whose id is not in the in-flight
map is answered with NOT_FOUND. -/
theorem end_history_unknown_not_found (st : HistoryServiceState)
    (req : EndHistoryRequest) (now : Int)
    (dbSave : History → Except String Unit)
    (storePush : History → Except String (String × Nat)) (version : String)
    (habs : req.id ∉ st.running.map fun p => p.1) :
    isNotFound (end_history st req now dbSave storePush version).2 = true := by
  rw [end_history_absent st req now dbSave storePush version habs]
  rfl

/-- Witness for C8 on an empty in-flight map. -/
theorem end_history_unknown_not_found_witness :
    ("x" ∉ (HistoryServiceState.mk [] true).running.map fun p => p.1) ∧
    isNotFound (end_history ⟨[], true⟩ ⟨"x", 0, 0⟩ 10 (fun _ => .ok ())
        (fun _ => .ok ("r", 0)) "v").2 = true :=
  ⟨by simp, end_history_unknown_not_found ⟨[], true⟩ ⟨"x", 0, 0⟩ 10
      (fun _ => .ok ()) (fun _ => .ok ("r", 0)) "v" (by simp)⟩

/-- Claim C10: EndHistory is not atomic on storage failure — when the
id is in flight and the call replies INTERNAL, the record has already
been removed from the in-flight map and is not reinserted, so repeating
the same request replies NOT_FOUND. -/
theorem end_history_failure_loses_record (st : HistoryServiceState)
    (req : EndHistoryRequest) (now : Int)
    (dbSave : History → Except String Unit)
    (storePush : History → Except String (String × Nat)) (version : String)
    (hmem : req.id ∈ st.running.map fun p => p.1)
    (_hfail : isInternal (end_history st req now dbSave storePush version).2 = true) :
    (req.id ∉ (end_history st req now dbSave storePush version).1.running.map
        fun p => p.1) ∧
    isNotFound (end_history (end_history st req now dbSave storePush version).1
        req now dbSave storePush version).2 = true := by
  have hrm := end_history_present_removes st req now dbSave storePush version hmem
  have habs : req.id ∉ (end_history st req now dbSave storePush version).1.running.map
      fun p => p.1 := by
    rw [hrm]
    exact not_mem_keys_filter_ne _ _
  refine ⟨habs, ?_⟩
  rw [end_history_absent _ req now dbSave storePush version habs]
  rfl

/-- Witness for C10: one in-flight record, a failing database save. -/
theorem end_history_failure_loses_record_witness :
    ("x" ∈ (HistoryServiceState.mk
        [("x", ⟨"x", "ls", "/tmp", "h", "s", 5, 0, 0⟩)] true).running.map
        fun p => p.1) ∧
    isInternal (end_history ⟨[("x", ⟨"x", "ls", "/tmp", "h", "s", 5, 0, 0⟩)], true⟩
        ⟨"x", 7, 0⟩ 10 (fun _ => .error ("disk")) (fun _ => .ok ("r", 0)) "v").2
      = true ∧
    (("x" ∉ (end_history ⟨[("x", ⟨"x", "ls", "/tmp", "h", "s", 5, 0, 0⟩)], true⟩
        ⟨"x", 7, 0⟩ 10 (fun _ => .error ("disk")) (fun _ => .ok ("r", 0)) "v").1.running.map
        fun p => p.1) ∧
      isNotFound (end_history (end_history
          ⟨[("x", ⟨"x", "ls", "/tmp", "h", "s", 5, 0, 0⟩)], true⟩
          ⟨"x", 7, 0⟩ 10 (fun _ => .error ("disk")) (fun _ => .ok ("r", 0)) "v").1
          ⟨"x", 7, 0⟩ 10 (fun _ => .error ("disk")) (fun _ => .ok ("r", 0)) "v").2
        = true) :=
  ⟨by simp, by decide,
    end_history_failure_loses_record
      ⟨[("x", ⟨"x", "ls", "/tmp", "h", "s", 5, 0, 0⟩)], true⟩
      ⟨"x", 7, 0⟩ 10 (fun _ => .error ("disk")) (fun _ => .ok ("r", 0)) "v"
      (by simp) (by decide)⟩

/-- Claim C9: on a successful sync tick the effects occur in order —
the record log's incremental_build over the downloaded records first,
then RecordsAdded with the downloaded ids, then
SyncCompleted(uploaded, downloaded). -/
theorem sync_tick_effect_order (uploaded : Nat) (downloaded : List RecordId)
    (periodAtBase : Bool) :
    ∃ rest,
      do_sync_tick (.ok true) (.ok (uploaded, downloaded)) periodAtBase
        = .incrementalBuild downloaded
            :: .emitRecordsAdded downloaded
            :: .emitSyncCompleted uploaded downloaded.length
            :: rest :=
  ⟨_, rfl⟩

/-- Membership in a modelled HashSet insert. -/
theorem mem_insertSet {α : Type} [DecidableEq α] {a b : α} {s : List α} :
    b ∈ insertSet a s ↔ b = a ∨ b ∈ s := by
  unfold insertSet
  split_ifs with ha
  · constructor
    · exact fun hb => Or.inr hb
    · rintro (rfl | hb)
      · exact ha
      · exact hb
  · exact List.mem_cons

/-- Lookup distributes over appending association lists. -/
theorem findCmd_append (l₁ l₂ : List (String × CommandData)) (c : String) :
    findCmd (l₁ ++ l₂) c = (findCmd l₁ c).or (findCmd l₂ c) := by
  induction l₁ with
  | nil => rfl
  | cons p rest ih =>
    by_cases hp : p.1 = c
    · simp [findCmd, hp]
    · simp [findCmd, hp, ih]

/-- Lookup fails exactly on absent keys. -/
theorem findCmd_eq_none_iff (l : List (String × CommandData)) (c : String) :
    findCmd l c = none ↔ c ∉ l.map fun p => p.1 := by
  induction l with
  | nil => simp [findCmd]
  | cons p rest ih =>
    by_cases hp : p.1 = c
    · simp [findCmd, hp]
    · simp [findCmd, hp, ih, Ne.symm hp]

/-- Lookup succeeds exactly on present keys. -/
theorem findCmd_isSome_iff (l : List (String × CommandData)) (c : String) :
    (findCmd l c).isSome = true ↔ c ∈ l.map fun p => p.1 := by
  rw [Option.isSome_iff_ne_none, ne_eq, findCmd_eq_none_iff]
  exact not_not

/-- How `updateCmd` affects lookups: only the record's own command key
changes, by `add_invocation`. -/
theorem findCmd_updateCmd (parse : String → Option UuidB) (h : History)
    (l : List (String × CommandData)) (c : String) :
    findCmd (updateCmd parse h l) c =
      if c = h.command then
        (findCmd l c).map fun d => d.add_invocation parse h
      else findCmd l c := by
  induction l with
  | nil => simp [findCmd, updateCmd]
  | cons p rest ih =>
    by_cases hph : p.1 = h.command
    · by_cases hpc : p.1 = c
      · have hch : c = h.command := hpc ▸ hph
        simp [updateCmd, findCmd, hph, hpc, hch]
      · have hch : ¬c = h.command := fun hc => hpc (hc ▸ hph)
        have hch2 : ¬h.command = c := fun e => hch e.symm
        simp [updateCmd, findCmd, hph, hpc, hch, hch2, ih]
    · by_cases hpc : p.1 = c
      · have hch : ¬c = h.command := fun hc => hph (hpc.trans hc)
        simp [updateCmd, findCmd, hph, hpc, hch]
      · simp [updateCmd, findCmd, hph, hpc, ih]

/-- `updateCmd` never changes the key set. -/
theorem updateCmd_keys (parse : String → Option UuidB) (h : History)
    (l : List (String × CommandData)) :
    (updateCmd parse h l).map (fun p => p.1) = l.map fun p => p.1 := by
  induction l with
  | nil => rfl
  | cons p rest ih =>
    by_cases hph : p.1 = h.command
    · simp [updateCmd, hph, ih]
    · simp [updateCmd, hph, ih]

/-- Session set of an updated entry: the old sessions plus (for a fully
valid record) the record's parsed session. -/
theorem mem_sessions_add_invocation (parse : String → Option UuidB)
    (d : CommandData) (h : History) (v : UuidB) :
    v ∈ (d.add_invocation parse h).sessions ↔
      v ∈ d.sessions ∨ ((parse h.id).isSome ∧ parse h.session = some v) := by
  rcases hid : parse h.id with _ | i
  · simp [CommandData.add_invocation, hid]
  · rcases hs : parse h.session with _ | b
    · simp [CommandData.add_invocation, hid, hs]
    · simp only [CommandData.add_invocation, hid, hs]
      rw [mem_insertSet]
      constructor
      · rintro (rfl | hv)
        · exact Or.inr ⟨rfl, rfl⟩
        · exact Or.inl hv
      · rintro (hv | ⟨_, hv⟩)
        · exact Or.inr hv
        · exact Or.inl (by injection hv.symm)

/-- Most-recent fields of an updated entry for a fully valid record. -/
theorem add_invocation_most_recent (parse : String → Option UuidB)
    (d : CommandData) (h : History) {i b : UuidB}
    (hid : parse h.id = some i) (hs : parse h.session = some b) :
    (d.add_invocation parse h).most_recent_timestamp
        = (if h.timestamp > d.most_recent_timestamp then h.timestamp
           else d.most_recent_timestamp) ∧
    (d.add_invocation parse h).most_recent_id
        = (if h.timestamp > d.most_recent_timestamp then i
           else d.most_recent_id) := by
  unfold CommandData.add_invocation
  rw [hid, hs]
  exact ⟨rfl, rfl⟩

/-- Shape of `CommandData::new` on a fully valid record. -/
theorem commandData_new_fields (parse : String → Option UuidB) (h : History)
    {i b : UuidB} (hid : parse h.id = some i) (hs : parse h.session = some b) :
    ∃ d, CommandData.new parse h = some d ∧ d.most_recent_id = i ∧
      d.most_recent_timestamp = h.timestamp ∧ d.sessions = [b] := by
  unfold CommandData.new
  rw [hid, hs]
  exact ⟨_, rfl, rfl, rfl, rfl⟩

/-- The inductive invariant tying an index to the records fed to
`add_history` so far: most-recent fields are attained and maximal among
the admitted records of each command, session sets record only observed
sessions, every admitted record has an entry, and map keys are nodup. -/
structure IndexInv (parse : String → Option UuidB) (l : List History)
    (idx : SearchIndex) : Prop where
  attained : ∀ c d, findCmd idx.commands c = some d →
    ∃ r ∈ l, r.command = c ∧ parse r.id = some d.most_recent_id ∧
      r.timestamp = d.most_recent_timestamp ∧ (parse r.session).isSome
  maximal : ∀ c d, findCmd idx.commands c = some d →
    ∀ r ∈ l, r.command = c → (parse r.id).isSome → (parse r.session).isSome →
      r.timestamp ≤ d.most_recent_timestamp
  sessions_from : ∀ c d, findCmd idx.commands c = some d →
    ∀ v ∈ d.sessions, ∃ r ∈ l, r.command = c ∧ parse r.session = some v
  keys_complete : ∀ r ∈ l, (parse r.id).isSome → (parse r.session).isSome →
    (findCmd idx.commands r.command).isSome
  keys_nodup : (idx.commands.map fun p => p.1).Nodup

/-- The invariant holds for the empty index and no records. -/
theorem indexInv_empty (parse : String → Option UuidB) :
    IndexInv parse [] SearchIndex.empty := by
  constructor
  · intro c d hf
    simp [SearchIndex.empty, findCmd] at hf
  · intro c d hf
    simp [SearchIndex.empty, findCmd] at hf
  · intro c d hf
    simp [SearchIndex.empty, findCmd] at hf
  · intro r hr
    simp at hr
  · simp [SearchIndex.empty]

/-- One step of `add_history` preserves the invariant. -/
theorem indexInv_add (parse : String → Option UuidB) (l : List History)
    (idx : SearchIndex) (h : History) (inv : IndexInv parse l idx) :
    IndexInv parse (l ++ [h]) (idx.add_history parse h) := by
  by_cases hval : (parse h.id).isSome ∧ (parse h.session).isSome
  case neg =>
    have hbad : parse h.id = none ∨ parse h.session = none := by
      by_contra hc
      push_neg at hc
      exact hval ⟨Option.isSome_iff_ne_none.mpr hc.1,
        Option.isSome_iff_ne_none.mpr hc.2⟩
    rw [add_history_invalid_eq parse idx h hbad]
    constructor
    · intro c d hf
      obtain ⟨r, hr, hrest⟩ := inv.attained c d hf
      exact ⟨r, List.mem_append_left _ hr, hrest⟩
    · intro c d hf r hr hc hi2 hs2
      rcases List.mem_append.mp hr with hrl | hrh
      · exact inv.maximal c d hf r hrl hc hi2 hs2
      · rw [List.mem_singleton.mp hrh] at hi2 hs2
        exact absurd ⟨hi2, hs2⟩ hval
    · intro c d hf v hv
      obtain ⟨r, hr, hrest⟩ := inv.sessions_from c d hf v hv
      exact ⟨r, List.mem_append_left _ hr, hrest⟩
    · intro r hr hi2 hs2
      rcases List.mem_append.mp hr with hrl | hrh
      · exact inv.keys_complete r hrl hi2 hs2
      · rw [List.mem_singleton.mp hrh] at hi2 hs2
        exact absurd ⟨hi2, hs2⟩ hval
    · exact inv.keys_nodup
  case pos =>
    obtain ⟨hi, hs⟩ := hval
    obtain ⟨i, hpid⟩ := Option.isSome_iff_exists.mp hi
    obtain ⟨b, hpsess⟩ := Option.isSome_iff_exists.mp hs
    rcases hf0 : findCmd idx.commands h.command with _ | d0
    · -- insert path: the command is new
      obtain ⟨dnew, hnew, hnid, hnts, hnsess⟩ :=
        commandData_new_fields parse h hpid hpsess
      have heq : idx.add_history parse h =
          { commands := idx.commands ++ [(h.command, dnew)]
            matcher := idx.matcher ++ [h.command] } := by
        simp [SearchIndex.add_history, hf0, hnew]
      rw [heq]
      have hfind : ∀ c, findCmd (idx.commands ++ [(h.command, dnew)]) c =
          (findCmd idx.commands c).or
            (if h.command = c then some dnew else none) := by
        intro c
        rw [findCmd_append]
        rfl
      constructor
      · intro c d hf
        rw [hfind c] at hf
        rcases hfc : findCmd idx.commands c with _ | d1
        · rw [hfc] at hf
          simp only [Option.or] at hf
          by_cases hcc : h.command = c
          · rw [if_pos hcc] at hf
            injection hf with hd
            subst hd
            refine ⟨h, List.mem_append_right _ (List.mem_singleton_self h),
              hcc, ?_, ?_, hs⟩
            · rw [hnid]
              exact hpid
            · exact hnts.symm
          · rw [if_neg hcc] at hf
            exact absurd hf (by simp)
        · rw [hfc] at hf
          simp only [Option.or] at hf
          injection hf with hd
          subst hd
          obtain ⟨r, hr, hrest⟩ := inv.attained c d1 hfc
          exact ⟨r, List.mem_append_left _ hr, hrest⟩
      · intro c d hf r hr hc hi2 hs2
        rw [hfind c] at hf
        rcases List.mem_append.mp hr with hrl | hrh
        · rcases hfc : findCmd idx.commands c with _ | d1
          · exfalso
            have hk := inv.keys_complete r hrl hi2 hs2
            rw [hc, hfc] at hk
            simp at hk
          · rw [hfc] at hf
            simp only [Option.or] at hf
            injection hf with hd
            subst hd
            exact inv.maximal c d1 hfc r hrl hc hi2 hs2
        · rw [List.mem_singleton.mp hrh] at hc ⊢
          rw [hc] at hf0
          rw [hf0] at hf
          simp only [Option.or] at hf
          rw [if_pos hc] at hf
          injection hf with hd
          subst hd
          exact le_of_eq hnts.symm
      · intro c d hf v hv
        rw [hfind c] at hf
        rcases hfc : findCmd idx.commands c with _ | d1
        · rw [hfc] at hf
          simp only [Option.or] at hf
          by_cases hcc : h.command = c
          · rw [if_pos hcc] at hf
            injection hf with hd
            subst hd
            rw [hnsess] at hv
            rw [List.mem_singleton.mp hv]
            exact ⟨h, List.mem_append_right _ (List.mem_singleton_self h),
              hcc, hpsess⟩
          · rw [if_neg hcc] at hf
            exact absurd hf (by simp)
        · rw [hfc] at hf
          simp only [Option.or] at hf
          injection hf with hd
          subst hd
          obtain ⟨r, hr, hrest⟩ := inv.sessions_from c d1 hfc v hv
          exact ⟨r, List.mem_append_left _ hr, hrest⟩
      · intro r hr hi2 hs2
        rw [hfind r.command]
        rcases List.mem_append.mp hr with hrl | hrh
        · have hk := inv.keys_complete r hrl hi2 hs2
          rcases hfc : findCmd idx.commands r.command with _ | d1
          · rw [hfc] at hk
            simp at hk
          · rfl
        · rw [List.mem_singleton.mp hrh]
          rw [hf0]
          simp only [Option.or, if_pos rfl]
          rfl
      · have hkeys : ((idx.commands ++ [(h.command, dnew)]).map fun p => p.1)
            = (idx.commands.map fun p => p.1) ++ [h.command] := by
          simp
        rw [hkeys]
        refine List.Nodup.append inv.keys_nodup (List.nodup_singleton _) ?_
        intro a ha hb
        rw [List.mem_singleton.mp hb] at ha
        exact (findCmd_eq_none_iff _ _).mp hf0 ha
    · -- update path: the command already has an entry
      have heq : idx.add_history parse h
          = { idx with commands := updateCmd parse h idx.commands } := by
        simp [SearchIndex.add_history, hf0]
      rw [heq]
      have hmr := add_invocation_most_recent parse d0 h hpid hpsess
      constructor
      · intro c d hf
        rw [findCmd_updateCmd] at hf
        by_cases hcc : c = h.command
        · subst hcc
          rw [hf0] at hf
          rw [if_pos rfl] at hf
          simp only [Option.map_some'] at hf
          injection hf with hd
          subst hd
          by_cases hgt : h.timestamp > d0.most_recent_timestamp
          · refine ⟨h, List.mem_append_right _ (List.mem_singleton_self h),
              rfl, ?_, ?_, hs⟩
            · rw [hmr.2, if_pos hgt]
              exact hpid
            · rw [hmr.1, if_pos hgt]
          · obtain ⟨r, hr, hrc, hrid, hrts, hrs⟩ := inv.attained h.command d0 hf0
            refine ⟨r, List.mem_append_left _ hr, hrc, ?_, ?_, hrs⟩
            · rw [hmr.2, if_neg hgt]
              exact hrid
            · rw [hmr.1, if_neg hgt]
              exact hrts
        · rw [if_neg hcc] at hf
          obtain ⟨r, hr, hrest⟩ := inv.attained c d hf
          exact ⟨r, List.mem_append_left _ hr, hrest⟩
      · intro c d hf r hr hc hi2 hs2
        rw [findCmd_updateCmd] at hf
        by_cases hcc : c = h.command
        · subst hcc
          rw [hf0] at hf
          rw [if_pos rfl] at hf
          simp only [Option.map_some'] at hf
          injection hf with hd
          subst hd
          have hup : d0.most_recent_timestamp
              ≤ (d0.add_invocation parse h).most_recent_timestamp := by
            rw [hmr.1]
            by_cases hgt : h.timestamp > d0.most_recent_timestamp
            · rw [if_pos hgt]
              exact le_of_lt hgt
            · rw [if_neg hgt]
          rcases List.mem_append.mp hr with hrl | hrh
          · exact le_trans (inv.maximal h.command d0 hf0 r hrl hc hi2 hs2) hup
          · rw [List.mem_singleton.mp hrh]
            rw [hmr.1]
            by_cases hgt : h.timestamp > d0.most_recent_timestamp
            · rw [if_pos hgt]
            · rw [if_neg hgt]
              exact le_of_not_lt hgt
        · rw [if_neg hcc] at hf
          rcases List.mem_append.mp hr with hrl | hrh
          · exact inv.maximal c d hf r hrl hc hi2 hs2
          · exfalso
            rw [List.mem_singleton.mp hrh] at hc
            exact hcc hc.symm
      · intro c d hf v hv
        rw [findCmd_updateCmd] at hf
        by_cases hcc : c = h.command
        · subst hcc
          rw [hf0] at hf
          rw [if_pos rfl] at hf
          simp only [Option.map_some'] at hf
          injection hf with hd
          subst hd
          rcases (mem_sessions_add_invocation parse d0 h v).mp hv with hold | hnew2
          · obtain ⟨r, hr, hrest⟩ := inv.sessions_from h.command d0 hf0 v hold
            exact ⟨r, List.mem_append_left _ hr, hrest⟩
          · exact ⟨h, List.mem_append_right _ (List.mem_singleton_self h),
              rfl, hnew2.2⟩
        · rw [if_neg hcc] at hf
          obtain ⟨r, hr, hrest⟩ := inv.sessions_from c d hf v hv
          exact ⟨r, List.mem_append_left _ hr, hrest⟩
      · intro r hr hi2 hs2
        rw [findCmd_updateCmd]
        by_cases hcc : r.command = h.command
        · rw [if_pos hcc, hcc, hf0]
          rfl
        · rw [if_neg hcc]
          rcases List.mem_append.mp hr with hrl | hrh
          · exact inv.keys_complete r hrl hi2 hs2
          · exfalso
            rw [List.mem_singleton.mp hrh] at hcc
            exact hcc rfl
      · rw [updateCmd_keys]
        exact inv.keys_nodup

/-- Folding `add_history` over a record list preserves the invariant. -/
theorem indexInv_add_histories (parse : String → Option UuidB)
    (l : List History) :
    ∀ (l₀ : List History) (idx : SearchIndex), IndexInv parse l₀ idx →
      IndexInv parse (l₀ ++ l) (SearchIndex.add_histories parse idx l) := by
  induction l with
  | nil =>
    intro l₀ idx inv
    simpa [SearchIndex.add_histories] using inv
  | cons h t ih =>
    intro l₀ idx inv
    have h1 := indexInv_add parse l₀ idx h inv
    have h2 := ih (l₀ ++ [h]) (idx.add_history parse h) h1
    simpa [SearchIndex.add_histories, List.append_assoc] using h2

/-- The invariant holds of the index built from any record list. -/
theorem indexInv_of_build (parse : String → Option UuidB) (l : List History) :
    IndexInv parse l (SearchIndex.add_histories parse SearchIndex.empty l) := by
  simpa using indexInv_add_histories parse l [] SearchIndex.empty
    (indexInv_empty parse)

/-- Claim C3: after any sequence of `add_history` insertions of records
with round-tripping identities into the empty index, every entry's
most_recent_timestamp is the maximum timestamp over the inserted records
with the same command text, and most_recent_id is the id of one record
attaining that maximum. -/
theorem most_recent_correct (parse : String → Option UuidB) (l : List History)
    (hval : ∀ r ∈ l, (parse r.id).isSome ∧ (parse r.session).isSome)
    (c : String) (d : CommandData)
    (hfind : findCmd
        (SearchIndex.add_histories parse SearchIndex.empty l).commands c
      = some d) :
    (∀ r ∈ l, r.command = c → r.timestamp ≤ d.most_recent_timestamp) ∧
    ∃ r ∈ l, r.command = c ∧ r.timestamp = d.most_recent_timestamp ∧
      parse r.id = some d.most_recent_id := by
  have inv := indexInv_of_build parse l
  constructor
  · intro r hr hc
    exact inv.maximal c d hfind r hr hc (hval r hr).1 (hval r hr).2
  · obtain ⟨r, hr, hc, hid, hts, _⟩ := inv.attained c d hfind
    exact ⟨r, hr, hc, hts, hid⟩

/-- A concrete always-successful UUID parser for witnesses: the byte
values of the string's characters. -/
def pC : String → Option UuidB :=
  fun s => some (s.data.map fun ch => ch.toNat)

/-- Concrete record: "ls" in /x at t = 10, id "a", session "s". -/
def r1c : History := ⟨"a", "ls", "/x", "h", "s", 10, 0, 0⟩

/-- Concrete record: "ls" in /x at t = 20, id "b", session "s". -/
def r2c : History := ⟨"b", "ls", "/x", "h", "s", 20, 0, 0⟩

/-- The entry for "ls" after inserting r1c then r2c under pC. -/
def d12 : CommandData := ⟨[98], 20, ⟨2, 20⟩, ["/x/"], ["h"], [[115]]⟩

/-- Witness for C3 at the two-record list r1c, r2c. -/
theorem most_recent_correct_witness :
    (∀ r ∈ [r1c, r2c], (pC r.id).isSome ∧ (pC r.session).isSome) ∧
    findCmd (SearchIndex.add_histories pC SearchIndex.empty [r1c, r2c]).commands
        ("ls") = some d12 ∧
    ((∀ r ∈ [r1c, r2c], r.command = "ls" →
        r.timestamp ≤ d12.most_recent_timestamp) ∧
      ∃ r ∈ [r1c, r2c], r.command = "ls" ∧
        r.timestamp = d12.most_recent_timestamp ∧
        pC r.id = some d12.most_recent_id) :=
  ⟨by decide, by decide,
    most_recent_correct pC [r1c, r2c] (by decide) ("ls") d12 (by decide)⟩

/-- Claim C4: after inserting any multiset of records with
round-tripping identities into the empty index, the number of distinct
command fields equals the entry count of the commands map. -/
theorem dedup_command_count (parse : String → Option UuidB) (l : List History)
    (hval : ∀ r ∈ l, (parse r.id).isSome ∧ (parse r.session).isSome) :
    ((l.map fun r => r.command).dedup).length
      = (SearchIndex.add_histories parse SearchIndex.empty l).command_count := by
  have inv := indexInv_of_build parse l
  have hmemiff : ∀ c,
      c ∈ ((SearchIndex.add_histories parse SearchIndex.empty l).commands.map
          fun p => p.1)
        ↔ c ∈ l.map fun r => r.command := by
    intro c
    constructor
    · intro hc
      have hsome := (findCmd_isSome_iff _ c).mpr hc
      obtain ⟨d, hd⟩ := Option.isSome_iff_exists.mp hsome
      obtain ⟨r, hr, hrc, _⟩ := inv.attained c d hd
      exact List.mem_map.mpr ⟨r, hr, hrc⟩
    · intro hc
      obtain ⟨r, hr, hrc⟩ := List.mem_map.mp hc
      have hsome := inv.keys_complete r hr (hval r hr).1 (hval r hr).2
      rw [← hrc]
      exact (findCmd_isSome_iff _ r.command).mp hsome
  have hfin : ((SearchIndex.add_histories parse SearchIndex.empty l).commands.map
        fun p => p.1).toFinset = (l.map fun r => r.command).toFinset := by
    apply Finset.ext
    intro a
    simp only [List.mem_toFinset]
    exact hmemiff a
  calc ((l.map fun r => r.command).dedup).length
      = (l.map fun r => r.command).toFinset.card := (List.card_toFinset _).symm
    _ = ((SearchIndex.add_histories parse SearchIndex.empty l).commands.map
          fun p => p.1).toFinset.card := by rw [hfin]
    _ = ((SearchIndex.add_histories parse SearchIndex.empty l).commands.map
          fun p => p.1).length := List.toFinset_card_of_nodup inv.keys_nodup
    _ = (SearchIndex.add_histories parse SearchIndex.empty l).commands.length :=
        List.length_map _ _
    _ = (SearchIndex.add_histories parse SearchIndex.empty l).command_count := rfl

/-- Witness for C4 at the two-record list r1c, r2c (one distinct
command). -/
theorem dedup_command_count_witness :
    (∀ r ∈ [r1c, r2c], (pC r.id).isSome ∧ (pC r.session).isSome) ∧
    (([r1c, r2c].map fun r => r.command).dedup).length
      = (SearchIndex.add_histories pC SearchIndex.empty [r1c, r2c]).command_count :=
  ⟨by decide, dedup_command_count pC [r1c, r2c] (by decide)⟩

/-- Bool set-membership test agrees with propositional membership. -/
theorem contains_uuid_iff (l : List UuidB) (b : UuidB) :
    l.contains b = true ↔ b ∈ l := by
  simp [List.contains, List.elem_iff]

/-- Claim C2 (amended): in Session(s) filter mode, every returned id is
the most_recent_id of a command entry having at least one inserted
invocation whose session parses to the same UUID as s.  (The returned
id itself may belong to an invocation of that command from a different
session — see the counterexample.) -/
theorem session_filter_sound (parse : String → Option UuidB)
    (l : List History) (s : String) (fuzzyMatched : List String)
    (limit : Nat) (u : UuidB)
    (hu : u ∈ (SearchIndex.add_histories parse SearchIndex.empty l).search
        parse (.Session s) fuzzyMatched limit) :
    ∃ c d, findCmd
        (SearchIndex.add_histories parse SearchIndex.empty l).commands c
      = some d ∧ u = d.most_recent_id ∧
      ∃ r ∈ l, r.command = c ∧ parse r.session = parse s ∧
        (parse r.session).isSome := by
  have inv := indexInv_of_build parse l
  unfold SearchIndex.search at hu
  obtain ⟨c, hcmem, hcu⟩ := List.mem_filterMap.mp hu
  obtain ⟨d, hd, hdu⟩ := Option.map_eq_some'.mp hcu
  have hcf := List.take_subset _ _ hcmem
  have hcfil := List.mem_filter.mp hcf
  have hpred := hcfil.2
  rw [hd] at hpred
  have hpass : (CommandData.has_invocation_in_session parse d s) = true := hpred
  unfold CommandData.has_invocation_in_session at hpass
  rcases hps : parse s with _ | b
  · rw [hps] at hpass
    exact absurd hpass (by simp)
  · rw [hps] at hpass
    have hbmem : b ∈ d.sessions := (contains_uuid_iff _ _).mp hpass
    obtain ⟨r, hr, hrc, hrs⟩ := inv.sessions_from c d hd b hbmem
    refine ⟨c, d, hd, hdu.symm, r, hr, hrc, ?_, ?_⟩
    · rw [hrs]
    · rw [hrs]
      rfl

/-- Record "ls" run in session sA at t = 10, id "a". -/
def rA : History := ⟨"a", "ls", "/x", "h", "sA", 10, 0, 0⟩

/-- Record "ls" run in session sB at t = 20, id "b". -/
def rB : History := ⟨"b", "ls", "/x", "h", "sB", 20, 0, 0⟩

/-- Claim C2 counterexample: with "ls" run in session sA at t = 10 and
again in session sB at t = 20, a Session(sA) query returns the entry's
most_recent_id, which is the id of the sB invocation — the returned id
is not the id of any inserted record whose session is sA. -/
theorem session_filter_id_counterexample :
    ∃ u ∈ (SearchIndex.add_histories pC SearchIndex.empty [rA, rB]).search pC
        (.Session ("sA")) ["ls"] 200,
      ∀ r ∈ [rA, rB], pC r.id = some u → r.session ≠ "sA" := by
  decide

/-- Witness for the amended C2 on a single-session index. -/
theorem session_filter_sound_witness :
    ([97] ∈ (SearchIndex.add_histories pC SearchIndex.empty [rA]).search pC
        (.Session ("sA")) ["ls"] 200) ∧
    ∃ c d, findCmd
        (SearchIndex.add_histories pC SearchIndex.empty [rA]).commands c
      = some d ∧ ([97] : UuidB) = d.most_recent_id ∧
      ∃ r ∈ [rA], r.command = c ∧ pC r.session = pC ("sA") ∧
        (pC r.session).isSome :=
  ⟨by decide,
    session_filter_sound pC [rA] ("sA") ["ls"] 200 [97] (by decide)⟩
